import Mathlib

/-!
# Verification of the directory-index and loader core of `assets_manager`

Shallow embedding of `src/dirs.rs` and `src/loader.rs`.

Paths returned by the directory listing are modelled abstractly by the three
observations the code makes of them: the extension component, the file stem,
and whether the entry is a regular file.  OS strings may fail UTF-8
decoding, so the extension and the stem are `Option (Option String)`:
`none` means the component is absent, `some none` means it is present but
not valid UTF-8, `some (some s)` means it decodes to `s`.

The external `AssetCache` collaborator (not part of the two source files)
is kept abstract: `cache.load` is an arbitrary stateful function
`σ → String → Except Err Val × σ` and `cache.load_cached` an arbitrary
pure lookup `String → Option Val`, exactly the interface the code uses.
-/

namespace AssetsManager

/-- Model of `std::path::Path` restricted to the observations made by
`dirs.rs`: extension, file stem (each possibly absent, possibly non-UTF-8)
and whether the entry is a regular file. -/
structure MPath where
  extension : Option (Option String)
  fileStem : Option (Option String)
  isFile : Bool

/-- `extension_of` from `dirs.rs`: the path's extension decoded to UTF-8,
where a path with no extension component counts as having extension `""`. -/
def extension_of (p : MPath) : Option String :=
  match p.extension with
  | some ext => ext
  | none => some ""

/-- `has_extension` from `dirs.rs`. -/
def has_extension (p : MPath) (ext : List String) : Bool :=
  match extension_of p with
  | some fileExt => ext.contains fileExt
  | none => false

/-- `id_push` from `dirs.rs`: append `name` to `id`, preceded by a dot
unless `id` is empty. -/
def id_push (id : String) (name : String) : String :=
  (if id.isEmpty then id else id ++ ".") ++ name

/-- The loop body of `CachedDir::load` from `dirs.rs`, folded over the list
of directory entries.  An entry is `Except.error` when `read_dir` yielded an
`Err` for it.  `cacheLoad` models the external `cache.load::<A>` call whose
result is discarded (`let _ = ...`); its state `σ` is threaded through.
Returns the recorded identifiers together with the final cache state. -/
def scanEntries {σ Err : Type} (cacheLoad : σ → String → Except Err Unit × σ)
    (exts : List String) (id : String) :
    σ → List (Except Unit MPath) → List String × σ
  | s, [] => ([], s)
  | s, .error _ :: rest => scanEntries cacheLoad exts id s rest
  | s, .ok path :: rest =>
    if ¬ has_extension path exts then
      scanEntries cacheLoad exts id s rest
    else
      match path.fileStem with
      | some (some name) =>
        if path.isFile then
          let this_id := id_push id name
          let s2 := (cacheLoad s this_id).2
          let ids := scanEntries cacheLoad exts id s2 rest
          (this_id :: ids.1, ids.2)
        else
          scanEntries cacheLoad exts id s rest
      | some none => scanEntries cacheLoad exts id s rest
      | none => scanEntries cacheLoad exts id s rest

/-- `CachedDir::load` from `dirs.rs`.  The directory listing is
`Except.error` when `fs::read_dir(path)` itself fails, in which case the
error propagates (`?`); otherwise the entries are scanned. -/
def CachedDir.load {σ Err : Type} (cacheLoad : σ → String → Except Err Unit × σ)
    (exts : List String) (id : String) (s : σ)
    (dir : Except Unit (List (Except Unit MPath))) :
    Except Unit (List String × σ) :=
  match dir with
  | .error _ => .error ()
  | .ok entries => .ok (scanEntries cacheLoad exts id s entries)

/-- `CachedDir::contains` from `dirs.rs`: linear scan of the string list. -/
def CachedDir.contains (assets : List String) (id : String) : Bool :=
  assets.any (fun s => s == id)

/-- `CachedDir::add` from `dirs.rs`: push at the end of the string list. -/
def CachedDir.add (assets : List String) (id : String) : List String :=
  assets ++ [id]

/-- `CachedDir::remove` from `dirs.rs`: remove the first entry equal to
`id`, if any. -/
def CachedDir.remove (assets : List String) (id : String) : List String :=
  match assets.findIdx? (fun s => s == id) with
  | some pos => assets.eraseIdx pos
  | none => assets

/-- `ReadDir::next` from `dirs.rs`, iterated to exhaustion over a snapshot:
for each identifier in order, a no-I/O `cache.load_cached` lookup; an
identifier with no cached value is skipped and the loop continues. -/
def ReadDir.collect {Val : Type} (load_cached : String → Option Val) :
    List String → List Val
  | [] => []
  | id :: rest =>
    match load_cached id with
    | some v => v :: ReadDir.collect load_cached rest
    | none => ReadDir.collect load_cached rest

/-- `ReadAllDir::next` from `dirs.rs`, iterated to exhaustion over a
snapshot: for each identifier in order, a full `cache.load` call (stateful,
may fail), yielding the pair `(identifier, outcome)`. -/
def ReadAllDir.collect {σ Val Err : Type}
    (load : σ → String → Except Err Val × σ) :
    σ → List String → List (String × Except Err Val)
  | _, [] => []
  | s, id :: rest =>
    let r := load s id
    (id, r.1) :: ReadAllDir.collect load r.2 rest

/-! ## Loader module (`src/loader.rs`) -/

/-- Outcome of calling a `Loader::load` implementation: a value, a normal
error, or an abort (Rust `panic!`). -/
inductive LoadOutcome (T : Type) where
  | ok : T → LoadOutcome T
  | err : String → LoadOutcome T
  | aborted : String → LoadOutcome T
deriving DecidableEq, Repr

/-- `CustomLoader::load` from `loader.rs`: unconditionally panics. -/
def CustomLoader.load (T : Type) (_content : List Nat) : LoadOutcome T :=
  .aborted "You forgot to override `Asset::load_from_raw` function"

/-- One Unicode scalar value encoded to UTF-8 bytes (1 to 4 of them). -/
def Utf8.encodeChar (c : Nat) : List Nat :=
  if c < 0x80 then [c]
  else if c < 0x800 then [0xC0 + c / 64, 0x80 + c % 64]
  else if c < 0x10000 then
    [0xE0 + c / 4096, 0x80 + c / 64 % 64, 0x80 + c % 64]
  else
    [0xF0 + c / 262144, 0x80 + c / 4096 % 64, 0x80 + c / 64 % 64,
      0x80 + c % 64]

/-- A sequence of Unicode scalar values encoded to UTF-8 bytes. -/
def Utf8.encode (cs : List Nat) : List Nat :=
  cs.foldr (fun c acc => Utf8.encodeChar c ++ acc) []

/-- Modelled from the spec / Rust std (not in the two source files):
classify one UTF-8-encoded scalar value with lead byte `b1` followed by
`rest` — strict decoding as performed by `String::from_utf8`, rejecting
continuation-byte errors, overlong encodings, surrogate code points and
code points above `0x10FFFF`.  Returns the code point and the number of
continuation bytes consumed. -/
def Utf8.decodeOne (b1 : Nat) (rest : List Nat) : Option (Nat × Nat) :=
  if b1 < 0x80 then some (b1, 0)
  else if b1 < 0xC0 then none
  else if b1 < 0xE0 then
    match rest with
    | b2 :: _ =>
      if (0x80 ≤ b2 ∧ b2 < 0xC0) ∧
          0x80 ≤ (b1 - 0xC0) * 64 + (b2 - 0x80) then
        some ((b1 - 0xC0) * 64 + (b2 - 0x80), 1)
      else none
    | [] => none
  else if b1 < 0xF0 then
    match rest with
    | b2 :: b3 :: _ =>
      if (0x80 ≤ b2 ∧ b2 < 0xC0) ∧ (0x80 ≤ b3 ∧ b3 < 0xC0) ∧
          0x800 ≤ (b1 - 0xE0) * 4096 + (b2 - 0x80) * 64 + (b3 - 0x80) ∧
          ¬ (0xD800 ≤ (b1 - 0xE0) * 4096 + (b2 - 0x80) * 64 + (b3 - 0x80) ∧
            (b1 - 0xE0) * 4096 + (b2 - 0x80) * 64 + (b3 - 0x80) < 0xE000) then
        some ((b1 - 0xE0) * 4096 + (b2 - 0x80) * 64 + (b3 - 0x80), 2)
      else none
    | _ => none
  else if b1 < 0xF8 then
    match rest with
    | b2 :: b3 :: b4 :: _ =>
      if (0x80 ≤ b2 ∧ b2 < 0xC0) ∧ (0x80 ≤ b3 ∧ b3 < 0xC0) ∧
          (0x80 ≤ b4 ∧ b4 < 0xC0) ∧
          0x10000 ≤ (b1 - 0xF0) * 262144 + (b2 - 0x80) * 4096 +
            (b3 - 0x80) * 64 + (b4 - 0x80) ∧
          (b1 - 0xF0) * 262144 + (b2 - 0x80) * 4096 +
            (b3 - 0x80) * 64 + (b4 - 0x80) < 0x110000 then
        some ((b1 - 0xF0) * 262144 + (b2 - 0x80) * 4096 +
          (b3 - 0x80) * 64 + (b4 - 0x80), 3)
      else none
    | _ => none
  else none

/-- Strict UTF-8 decoding of a whole byte sequence, one scalar value at a
time via `Utf8.decodeOne`; the fuel argument bounds the number of decoded
scalar values (each one consumes at least one byte). -/
def Utf8.decodeAux : Nat → List Nat → Option (List Nat)
  | _, [] => some []
  | 0, _ :: _ => none
  | fuel + 1, b1 :: rest =>
    match Utf8.decodeOne b1 rest with
    | none => none
    | some (c, k) => (Utf8.decodeAux fuel (rest.drop k)).map (c :: ·)

/-- Modelled from the spec / Rust std (not in the two source files):
strict UTF-8 decoding of a whole byte sequence; the byte count is always
enough fuel. -/
def Utf8.decode (bs : List Nat) : Option (List Nat) :=
  Utf8.decodeAux bs.length bs

/-- Modelled from Rust std (not in the two source files):
`String::from_utf8`, which returns the decoded string or an error carrying
the original byte vector. -/
def RustString.from_utf8 (bytes : List Nat) : Except (List Nat) (List Nat) :=
  match Utf8.decode bytes with
  | some s => .ok s
  | none => .error bytes

/-- `StringLoader::load` from `loader.rs`: `Ok(String::from_utf8(content)?)`. -/
def StringLoader.load (content : List Nat) : Except (List Nat) (List Nat) :=
  match RustString.from_utf8 content with
  | .ok s => .ok s
  | .error e => .error e

/-- A Unicode scalar value: a code point that is not a surrogate and is at
most `0x10FFFF`. -/
def Utf8Scalar (c : Nat) : Prop := c < 0xD800 ∨ (0xE000 ≤ c ∧ c < 0x110000)

/-- A byte sequence is valid UTF-8 when it is the encoding of some sequence
of Unicode scalar values. -/
def ValidUtf8 (bs : List Nat) : Prop :=
  ∃ cs, (∀ c ∈ cs, Utf8Scalar c) ∧ Utf8.encode cs = bs

/-! ## Spec-side definitions -/

/-- Follows the spec's words: `childId = parentId + '.' + fileStem`, or just
`fileStem` when the parent identifier is empty. -/
def specJoin (pid name : String) : String :=
  if pid = "" then name else pid ++ "." ++ name

/-- Follows the spec's words: a successful scan records exactly the
identifiers of the regular-file entries whose extension is in the accepted
set (an entry with no extension counting as having extension `""`), each
identifier being `specJoin parentId fileStem`. -/
def specScan (exts : List String) (pid : String)
    (entries : List (Except Unit MPath)) : List String :=
  entries.filterMap fun e =>
    match e with
    | .error _ => none
    | .ok p =>
      match (match p.extension with | none => some "" | some ext => ext) with
      | none => none
      | some fe =>
        if fe ∈ exts ∧ p.isFile then
          match p.fileStem with
          | some (some name) => some (specJoin pid name)
          | _ => none
        else none

/-- The dot-separated segments of a string, over its character list.
`segs []` is `[[]]`: the empty string has one (empty) segment. -/
def segs : List Char → List (List Char)
  | [] => [[]]
  | c :: rest =>
    if c = '.' then [] :: segs rest
    else
      match segs rest with
      | s :: ss => (c :: s) :: ss
      | [] => [[c]]

/-- All dot-separated segments of the identifier are non-empty. -/
def goodId (s : String) : Prop := ∀ seg ∈ segs s.data, seg ≠ []

/-- A sample cache collaborator whose loads always succeed, used to
instantiate the theorems on concrete inputs. -/
def okCache : Unit → String → Except Unit Unit × Unit :=
  fun s _ => (.ok (), s)

/-- A sample cache collaborator whose loads always fail. -/
def failCache : Unit → String → Except String Unit × Unit :=
  fun s _ => (.error "load failed", s)

/-- A sample directory entry that is not a regular file. -/
def sampleNonFile : MPath :=
  ⟨some (some "json"), some (some "a"), false⟩

/-! ## Helper lemmas -/

theorem contains_iff_mem (l : List String) (id : String) :
    CachedDir.contains l id = true ↔ id ∈ l := by
  simp [CachedDir.contains, List.any_eq_true]

/-- C3: for every cache behaviour and every snapshot, the all-mode
iteration yields exactly one `(identifier, outcome)` pair per tracked
identifier, in snapshot order: its length equals the snapshot length no
matter how many loads fail, and the first components are the snapshot. -/
theorem readAllDir_exact_size (σ Val Err : Type)
    (load : σ → String → Except Err Val × σ) (s : σ) (ids : List String) :
    (ReadAllDir.collect load s ids).length = ids.length ∧
    (ReadAllDir.collect load s ids).map Prod.fst = ids := by
  induction ids generalizing s with
  | nil => simp [ReadAllDir.collect]
  | cons id rest ih => simp [ReadAllDir.collect, ih]

/-- C4: for every cache state, the cached-only iteration yields exactly the
values of the identifiers whose no-I/O lookup returns a value, in snapshot
order (a `filterMap` of the snapshot), so its length is at most the
snapshot length. -/
theorem readDir_cached_only (Val : Type) (lc : String → Option Val)
    (ids : List String) :
    ReadDir.collect lc ids = ids.filterMap lc ∧
    (ReadDir.collect lc ids).length ≤ ids.length := by
  have h : ∀ l : List String, ReadDir.collect lc l = l.filterMap lc := by
    intro l
    induction l with
    | nil => rfl
    | cons id rest ih =>
      cases hv : lc id <;> simp [ReadDir.collect, hv, ih]
  refine ⟨h ids, ?_⟩
  rw [h ids]
  exact List.length_filterMap_le lc ids

/-- C6: `add` appends the identifier at the end with no deduplication — the
length always grows by one, even when the identifier is already present —
and a subsequent `contains` finds it. -/
theorem add_appends_no_dedup (l : List String) (id : String) :
    (CachedDir.add l id).length = l.length + 1 ∧
    (CachedDir.add l id).getLast? = some id ∧
    CachedDir.contains (CachedDir.add l id) id = true := by
  refine ⟨by simp [CachedDir.add], by simp [CachedDir.add], ?_⟩
  rw [contains_iff_mem]
  simp [CachedDir.add]

/-- C9: `CustomLoader::load`, invoked on any byte vector, aborts (panics);
it never returns a value nor a normal error. -/
theorem customLoader_aborts (T : Type) (content : List Nat) :
    CustomLoader.load T content =
      .aborted "You forgot to override `Asset::load_from_raw` function" ∧
    (∀ v : T, CustomLoader.load T content ≠ .ok v) ∧
    (∀ e : String, CustomLoader.load T content ≠ .err e) := by
  refine ⟨rfl, ?_, ?_⟩ <;> intro x h <;> cases h

theorem remove_cons_self (x id : String) (xs : List String)
    (h : (x == id) = true) :
    CachedDir.remove (x :: xs) id = xs := by
  simp [CachedDir.remove, List.findIdx?_cons, h]

theorem remove_cons_ne (x id : String) (xs : List String)
    (h : (x == id) = false) :
    CachedDir.remove (x :: xs) id = x :: CachedDir.remove xs id := by
  simp only [CachedDir.remove, List.findIdx?_cons, h, cond_false]
  cases hf : xs.findIdx? (fun s => s == id) with
  | none => simp [hf]
  | some i => simp [hf, List.eraseIdx]

theorem remove_eq_erase (l : List String) (id : String) :
    CachedDir.remove l id = l.erase id := by
  induction l with
  | nil => rfl
  | cons x xs ih =>
    cases h : x == id with
    | true =>
      rw [remove_cons_self x id xs h, List.erase_cons, if_pos (by simpa using h)]
    | false =>
      rw [remove_cons_ne x id xs h, List.erase_cons,
        if_neg (by simpa using h), ih]

/-- C5 counterexample: on the index state `["a", "a"]` (a duplicate the
code permits `add` to create), `remove "a"` erases only the first
occurrence, so `contains "a"` still returns `true` afterwards — refuting
the claim that `remove(id)` then `contains(id)` always returns `false`. -/
theorem remove_then_contains_cex :
    CachedDir.contains (CachedDir.remove ["a", "a"] "a") "a" = true := by
  decide

/-- C5 (amended): if `id` occurs at most once in the index state, then
after `remove id` a `contains id` check returns `false`; and `remove id` on
a state whose list does not contain `id` is a no-op that leaves the list
unchanged. -/
theorem remove_then_not_contains (l : List String) (id : String) :
    (l.count id ≤ 1 → CachedDir.contains (CachedDir.remove l id) id = false) ∧
    (CachedDir.contains l id = false → CachedDir.remove l id = l) := by
  constructor
  · intro hcount
    rw [remove_eq_erase]
    have hnot : id ∉ l.erase id := by
      have h1 := l.count_erase_self id
      have h2 : (l.erase id).count id = 0 := by omega
      rwa [List.count_eq_zero] at h2
    rw [← Bool.not_eq_true, contains_iff_mem]
    exact hnot
  · intro hcont
    have hnot : id ∉ l := by
      rw [← contains_iff_mem, hcont]
      simp
    rw [remove_eq_erase, List.erase_of_not_mem hnot]

/-- Witness for the amended C5 at `l = ["a", "b"]`, `id = "a"`. -/
theorem remove_then_not_contains_witness :
    CachedDir.contains (CachedDir.remove ["a", "b"] "a") "a" = false ∧
    CachedDir.remove ["a", "b"] "c" = ["a", "b"] :=
  ⟨(remove_then_not_contains ["a", "b"] "a").1 (by decide),
    (remove_then_not_contains ["a", "b"] "c").2 (by decide)⟩

theorem id_push_eq_specJoin (pid name : String) :
    id_push pid name = specJoin pid name := by
  by_cases h : pid = "" <;>
    simp [id_push, specJoin, h, String.isEmpty_iff, String.append_assoc]

theorem scanEntries_fst {σ Err : Type}
    (f : σ → String → Except Err Unit × σ) (exts : List String)
    (pid : String) :
    ∀ (entries : List (Except Unit MPath)) (s : σ),
      (scanEntries f exts pid s entries).1 = specScan exts pid entries := by
  intro entries
  induction entries with
  | nil => intro s; rfl
  | cons e rest ih =>
    intro s
    cases e with
    | error u => simpa [scanEntries, specScan] using ih s
    | ok p =>
      rcases hx : p.extension with _ | ext
      · by_cases hmem : "" ∈ exts
        · rcases hstem : p.fileStem with _ | (_ | name)
          · simp [scanEntries, has_extension, extension_of, hx, hmem, hstem,
              specScan, List.filterMap_cons, ih]
          · simp [scanEntries, has_extension, extension_of, hx, hmem, hstem,
              specScan, List.filterMap_cons, ih]
          · cases hfile : p.isFile <;>
              simp [scanEntries, has_extension, extension_of, hx, hmem,
                hstem, hfile, specScan, List.filterMap_cons, ih,
                id_push_eq_specJoin]
        · simp [scanEntries, has_extension, extension_of, hx, hmem,
            specScan, List.filterMap_cons, ih]
      · rcases ext with _ | fe
        · simp [scanEntries, has_extension, extension_of, hx, specScan,
            List.filterMap_cons, ih]
        · by_cases hmem : fe ∈ exts
          · rcases hstem : p.fileStem with _ | (_ | name)
            · simp [scanEntries, has_extension, extension_of, hx, hmem,
                hstem, specScan, List.filterMap_cons, ih]
            · simp [scanEntries, has_extension, extension_of, hx, hmem,
                hstem, specScan, List.filterMap_cons, ih]
            · cases hfile : p.isFile <;>
                simp [scanEntries, has_extension, extension_of, hx, hmem,
                  hstem, hfile, specScan, List.filterMap_cons, ih,
                  id_push_eq_specJoin]
          · simp [scanEntries, has_extension, extension_of, hx, hmem,
              specScan, List.filterMap_cons, ih]

/-- C1: a successful scan records exactly the identifiers of the
regular-file entries whose extension is in the accepted set (an entry with
no extension counting as having extension `""`), each identifier equal to
`parentId ++ "." ++ fileStem`, or just `fileStem` when the parent is empty;
all other entries are excluded. -/
theorem scan_records_spec (σ Err : Type)
    (f : σ → String → Except Err Unit × σ) (exts : List String)
    (pid : String) (s : σ) (entries : List (Except Unit MPath)) :
    ∃ s2 : σ, CachedDir.load f exts pid s (.ok entries) =
      .ok (specScan exts pid entries, s2) := by
  refine ⟨(scanEntries f exts pid s entries).2, ?_⟩
  simp only [CachedDir.load]
  rw [← scanEntries_fst f exts pid entries s]

/-- C2: the scan fails (with the IO error) exactly when listing the
directory fails; an unreadable entry and a non-file entry are skipped
without aborting; and the recorded identifiers do not depend on the cache's
load behaviour or state — a failed load is swallowed, the identifier is
recorded either way. -/
theorem scan_error_policy (σ τ Err Err2 : Type)
    (f : σ → String → Except Err Unit × σ)
    (g : τ → String → Except Err2 Unit × τ)
    (exts : List String) (pid : String) (s : σ) (t : τ)
    (dir : Except Unit (List (Except Unit MPath)))
    (entries : List (Except Unit MPath)) (p : MPath) :
    ((CachedDir.load f exts pid s dir).isOk = dir.isOk) ∧
    (scanEntries f exts pid s (.error () :: entries) =
      scanEntries f exts pid s entries) ∧
    (p.isFile = false →
      scanEntries f exts pid s (.ok p :: entries) =
        scanEntries f exts pid s entries) ∧
    ((scanEntries f exts pid s entries).1 =
      (scanEntries g exts pid t entries).1) := by
  refine ⟨?_, rfl, ?_, ?_⟩
  · cases dir <;> rfl
  · intro hfile
    by_cases hext : has_extension p exts
    · cases hstem : p.fileStem with
      | none => simp [scanEntries, hext, hstem]
      | some inner =>
        cases inner with
        | none => simp [scanEntries, hext, hstem]
        | some name => simp [scanEntries, hext, hstem, hfile]
    · simp [scanEntries, hext]
  · rw [scanEntries_fst f exts pid entries s,
      scanEntries_fst g exts pid entries t]

/-- Witness for C2 at a concrete cache, state, listing and non-file entry. -/
theorem scan_error_policy_witness :
    ((CachedDir.load okCache ["json"] "items" () (.error ())).isOk =
      (Except.error () : Except Unit (List (Except Unit MPath))).isOk) ∧
    (scanEntries okCache ["json"] "items" () (.error () :: []) =
      scanEntries okCache ["json"] "items" () []) ∧
    (scanEntries okCache ["json"] "items" () (.ok sampleNonFile :: []) =
      scanEntries okCache ["json"] "items" () []) ∧
    ((scanEntries okCache ["json"] "items" () []).1 =
      (scanEntries failCache ["json"] "items" () []).1) := by
  have h := scan_error_policy Unit Unit Unit String okCache failCache
    ["json"] "items" () () (.error ()) [] sampleNonFile
  exact ⟨h.1, h.2.1, h.2.2.1 rfl, h.2.2.2⟩

theorem segs_ne_nil (xs : List Char) : segs xs ≠ [] := by
  induction xs with
  | nil => simp [segs]
  | cons c rest ih =>
    rw [segs]
    by_cases h : c = '.'
    · simp [h]
    · cases hs : segs rest with
      | nil => exact absurd hs ih
      | cons s ss => simp [h, hs]

theorem segs_cons_dot (l : List Char) : segs ('.' :: l) = [] :: segs l := by
  rw [segs]
  simp

theorem segs_cons_ne (c : Char) (l : List Char) (h : ¬ c = '.') :
    segs (c :: l) = match segs l with
      | s :: ss => (c :: s) :: ss
      | [] => [[c]] := by
  rw [segs, if_neg h]

theorem segs_append_dot (xs ys : List Char) :
    segs (xs ++ '.' :: ys) = segs xs ++ segs ys := by
  induction xs with
  | nil => simp [segs_cons_dot, segs]
  | cons c rest ih =>
    by_cases h : c = '.'
    · subst h
      simp only [List.cons_append, segs_cons_dot, ih]
    · cases hs : segs rest with
      | nil => exact absurd hs (segs_ne_nil rest)
      | cons s ss =>
        simp only [List.cons_append]
        rw [segs_cons_ne c _ h, segs_cons_ne c _ h, ih, hs]
        simp

theorem goodId_ne_empty (pid : String) (h : goodId pid) : pid ≠ "" := by
  intro he
  subst he
  exact h [] (by simp [segs]) rfl

theorem goodId_id_push (pid name : String) (hpid : pid = "" ∨ goodId pid)
    (hname : goodId name) : goodId (id_push pid name) := by
  cases hpid with
  | inl h =>
    subst h
    intro seg hseg
    apply hname seg
    simpa [id_push] using hseg
  | inr h =>
    have hne : pid.isEmpty = false := by
      rw [← Bool.not_eq_true, String.isEmpty_iff]
      exact goodId_ne_empty pid h
    intro seg hseg
    rw [id_push, hne] at hseg
    simp only [Bool.false_eq_true, if_false] at hseg
    have hdata : ((pid ++ ".") ++ name).data = pid.data ++ '.' :: name.data := by
      simp [String.data_append]
    rw [goodId] at h hname
    rw [hdata, segs_append_dot] at hseg
    rcases List.mem_append.mp hseg with hl | hr
    · exact h seg hl
    · exact hname seg hr

/-- C7 counterexample: the parent identifier `"items"` has only non-empty
segments, yet scanning a directory containing the regular file
`.foo.json` (file stem `".foo"`, extension `"json"`) records the
identifier `"items..foo"`, whose middle dot-separated segment is empty. -/
theorem scan_segments_cex :
    goodId "items" ∧
    ¬ (∀ id ∈ (scanEntries okCache ["json"] "items" ()
        [.ok ⟨some (some "json"), some (some ".foo"), true⟩]).1,
      goodId id) := by
  unfold goodId
  decide

/-- C7 (amended): if the parent identifier is empty or has only non-empty
dot-separated segments, and every file stem appearing in the scanned
entries has only non-empty dot-separated segments, then every identifier
recorded by the scan has only non-empty dot-separated segments. -/
theorem scan_ids_good_segments (σ Err : Type)
    (f : σ → String → Except Err Unit × σ) (exts : List String)
    (pid : String) (s : σ) (entries : List (Except Unit MPath))
    (hpid : pid = "" ∨ goodId pid)
    (hstem : ∀ (q : MPath) (name : String), Except.ok q ∈ entries →
      q.fileStem = some (some name) → goodId name) :
    ∀ id ∈ (scanEntries f exts pid s entries).1, goodId id := by
  intro id hid
  rw [scanEntries_fst] at hid
  rw [specScan, List.mem_filterMap] at hid
  obtain ⟨e, he, hfn⟩ := hid
  cases e with
  | error u => simp at hfn
  | ok p =>
    dsimp only at hfn
    split at hfn
    · exact absurd hfn (by simp)
    · split_ifs at hfn with hc
      split at hfn
      · rename_i name heq
        have hname := hstem p name he heq
        have hid2 : id = specJoin pid name := by
          injection hfn with h2
          exact h2.symm
        rw [hid2, ← id_push_eq_specJoin]
        exact goodId_id_push pid name hpid hname
      · exact absurd hfn (by simp)

/-- Witness for the amended C7 at a concrete scan: the identifier the scan
records for stem `"a"` under parent `"items"` has only non-empty segments. -/
theorem scan_ids_good_segments_witness : goodId "items.a" := by
  refine scan_ids_good_segments Unit Unit okCache ["json"] "items" ()
    [.ok ⟨some (some "json"), some (some "a"), true⟩]
    (Or.inr (by unfold goodId; decide)) ?_ "items.a" ?_
  · intro q name hq hs
    rw [List.mem_singleton] at hq
    injection hq with hq2
    subst hq2
    injection hs with hs2
    injection hs2 with hs3
    subst hs3
    unfold goodId
    decide
  · decide

theorem Utf8.encode_cons (c : Nat) (cs : List Nat) :
    Utf8.encode (c :: cs) = Utf8.encodeChar c ++ Utf8.encode cs := rfl

theorem Utf8.decode_sound :
    ∀ (n : Nat) (bs cs : List Nat), bs.length ≤ n →
      Utf8.decodeAux n bs = some cs →
      Utf8.encode cs = bs ∧ ∀ c ∈ cs, Utf8Scalar c := by
  intro n
  induction n with
  | zero =>
    intro bs cs hlen h
    cases bs with
    | nil =>
      rw [Utf8.decodeAux] at h
      cases h
      exact ⟨rfl, by simp⟩
    | cons b1 rest => simp at hlen
  | succ n ih =>
    intro bs cs hlen h
    cases bs with
    | nil =>
      rw [Utf8.decodeAux] at h
      cases h
      exact ⟨rfl, by simp⟩
    | cons b1 rest =>
      rw [Utf8.decodeAux] at h
      cases hone : Utf8.decodeOne b1 rest with
      | none =>
        rw [hone] at h
        cases h
      | some ck =>
        obtain ⟨c, k⟩ := ck
        rw [hone] at h
        dsimp only at h
        rw [Option.map_eq_some'] at h
        obtain ⟨cs', hdec, hcons⟩ := h
        subst hcons
        rw [Utf8.decodeOne.eq_def] at hone
        split_ifs at hone with h1 h2 h3 h4 h5
        · simp only [Option.some.injEq, Prod.mk.injEq] at hone
          obtain ⟨hc, hk⟩ := hone
          subst hc
          subst hk
          rw [List.drop_zero] at hdec
          obtain ⟨henc, hsc⟩ := ih rest cs'
            (by simp only [List.length_cons] at hlen; omega) hdec
          refine ⟨?_, ?_⟩
          · rw [Utf8.encode_cons, Utf8.encodeChar, if_pos h1, henc]
            rfl
          · intro x hx
            rcases List.mem_cons.mp hx with rfl | hmem
            · unfold Utf8Scalar
              omega
            · exact hsc x hmem
        · cases rest with
          | nil => simp at hone
          | cons b2 r =>
            dsimp only at hone
            split_ifs at hone with hcond
            simp only [Option.some.injEq, Prod.mk.injEq] at hone
            obtain ⟨hc, hk⟩ := hone
            subst hc
            subst hk
            rw [show (b2 :: r).drop 1 = r from rfl] at hdec
            obtain ⟨henc, hsc⟩ := ih r cs'
              (by simp only [List.length_cons] at hlen; omega) hdec
            refine ⟨?_, ?_⟩
            · rw [Utf8.encode_cons, Utf8.encodeChar, if_neg (by omega),
                if_pos (by omega), henc]
              simp only [List.cons_append, List.nil_append, List.cons.injEq]
              exact ⟨by omega, by omega, trivial⟩
            · intro x hx
              rcases List.mem_cons.mp hx with hx1 | hmem
              · unfold Utf8Scalar
                omega
              · exact hsc x hmem
        · cases rest with
          | nil => simp at hone
          | cons b2 rest2 =>
            cases rest2 with
            | nil => simp at hone
            | cons b3 r =>
              dsimp only at hone
              split_ifs at hone with hcond
              simp only [Option.some.injEq, Prod.mk.injEq] at hone
              obtain ⟨hc, hk⟩ := hone
              subst hc
              subst hk
              rw [show (b2 :: b3 :: r).drop 2 = r from rfl] at hdec
              obtain ⟨henc, hsc⟩ := ih r cs'
                (by simp only [List.length_cons] at hlen; omega) hdec
              refine ⟨?_, ?_⟩
              · rw [Utf8.encode_cons, Utf8.encodeChar, if_neg (by omega),
                  if_neg (by omega), if_pos (by omega), henc]
                simp only [List.cons_append, List.nil_append,
                  List.cons.injEq]
                exact ⟨by omega, by omega, by omega, trivial⟩
              · intro x hx
                rcases List.mem_cons.mp hx with hx1 | hmem
                · unfold Utf8Scalar
                  omega
                · exact hsc x hmem
        · cases rest with
          | nil => simp at hone
          | cons b2 rest2 =>
            cases rest2 with
            | nil => simp at hone
            | cons b3 rest3 =>
              cases rest3 with
              | nil => simp at hone
              | cons b4 r =>
                dsimp only at hone
                split_ifs at hone with hcond
                simp only [Option.some.injEq, Prod.mk.injEq] at hone
                obtain ⟨hc, hk⟩ := hone
                subst hc
                subst hk
                rw [show (b2 :: b3 :: b4 :: r).drop 3 = r from rfl] at hdec
                obtain ⟨henc, hsc⟩ := ih r cs'
                  (by simp only [List.length_cons] at hlen; omega) hdec
                refine ⟨?_, ?_⟩
                · rw [Utf8.encode_cons, Utf8.encodeChar, if_neg (by omega),
                    if_neg (by omega), if_neg (by omega), henc]
                  simp only [List.cons_append, List.nil_append,
                    List.cons.injEq]
                  exact ⟨by omega, by omega, by omega, by omega, trivial⟩
                · intro x hx
                  rcases List.mem_cons.mp hx with hx1 | hmem
                  · unfold Utf8Scalar
                    omega
                  · exact hsc x hmem

theorem Utf8.encode_complete_aux :
    ∀ (cs : List Nat) (n : Nat), (Utf8.encode cs).length ≤ n →
      (∀ c ∈ cs, Utf8Scalar c) →
      Utf8.decodeAux n (Utf8.encode cs) = some cs := by
  intro cs
  induction cs with
  | nil =>
    intro n _ _
    rw [show Utf8.encode [] = [] from rfl, Utf8.decodeAux]
  | cons c cs' ih =>
    intro n hlen hsc
    have hc : Utf8Scalar c := hsc c (by simp)
    unfold Utf8Scalar at hc
    have hsc' := fun x hx => hsc x (List.mem_cons_of_mem c hx)
    rw [Utf8.encode_cons] at hlen ⊢
    rcases Nat.lt_or_ge c 0x80 with h1 | h1
    · rw [show Utf8.encodeChar c = [c] from by
        rw [Utf8.encodeChar, if_pos h1]] at hlen ⊢
      cases n with
      | zero => simp at hlen
      | succ m =>
        rw [List.singleton_append, Utf8.decodeAux]
        have hone : Utf8.decodeOne c (Utf8.encode cs') = some (c, 0) := by
          rw [Utf8.decodeOne.eq_def, if_pos h1]
        rw [hone]
        show (Utf8.decodeAux m ((Utf8.encode cs').drop 0)).map
          (fun x => c :: x) = some (c :: cs')
        rw [List.drop_zero, ih m (by simp at hlen; omega) hsc']
        rfl
    · rcases Nat.lt_or_ge c 0x800 with h2 | h2
      · rw [show Utf8.encodeChar c = [0xC0 + c / 64, 0x80 + c % 64] from by
          rw [Utf8.encodeChar, if_neg (by omega), if_pos h2]] at hlen ⊢
        cases n with
        | zero => simp at hlen
        | succ m =>
          rw [List.cons_append, List.cons_append, List.nil_append,
            Utf8.decodeAux]
          have hone : Utf8.decodeOne (0xC0 + c / 64)
              ((0x80 + c % 64) :: Utf8.encode cs') = some (c, 1) := by
            rw [Utf8.decodeOne.eq_def, if_neg (by omega), if_neg (by omega),
              if_pos (by omega)]
            dsimp only
            split_ifs with hcond
            · simp only [Option.some.injEq, Prod.mk.injEq]
              exact ⟨by omega, trivial⟩
            · exact absurd (by omega) hcond
          rw [hone]
          show (Utf8.decodeAux m (((0x80 + c % 64) ::
            Utf8.encode cs').drop 1)).map (fun x => c :: x) =
            some (c :: cs')
          rw [show ((0x80 + c % 64) :: Utf8.encode cs').drop 1 =
            Utf8.encode cs' from rfl]
          rw [ih m (by simp at hlen; omega) hsc']
          rfl
      · rcases Nat.lt_or_ge c 0x10000 with h3 | h3
        · rw [show Utf8.encodeChar c =
              [0xE0 + c / 4096, 0x80 + c / 64 % 64, 0x80 + c % 64] from by
            rw [Utf8.encodeChar, if_neg (by omega), if_neg (by omega),
              if_pos h3]] at hlen ⊢
          cases n with
          | zero => simp at hlen
          | succ m =>
            rw [List.cons_append, List.cons_append, List.cons_append,
              List.nil_append, Utf8.decodeAux]
            have hone : Utf8.decodeOne (0xE0 + c / 4096)
                ((0x80 + c / 64 % 64) :: (0x80 + c % 64) ::
                  Utf8.encode cs') = some (c, 2) := by
              rw [Utf8.decodeOne.eq_def, if_neg (by omega),
                if_neg (by omega), if_neg (by omega), if_pos (by omega)]
              dsimp only
              split_ifs with hcond
              · simp only [Option.some.injEq, Prod.mk.injEq]
                exact ⟨by omega, trivial⟩
              · exact absurd (by omega) hcond
            rw [hone]
            show (Utf8.decodeAux m (((0x80 + c / 64 % 64) ::
              (0x80 + c % 64) :: Utf8.encode cs').drop 2)).map
              (fun x => c :: x) = some (c :: cs')
            rw [show ((0x80 + c / 64 % 64) :: (0x80 + c % 64) ::
              Utf8.encode cs').drop 2 = Utf8.encode cs' from rfl]
            rw [ih m (by simp at hlen; omega) hsc']
            rfl
        · rw [show Utf8.encodeChar c =
              [0xF0 + c / 262144, 0x80 + c / 4096 % 64, 0x80 + c / 64 % 64,
                0x80 + c % 64] from by
            rw [Utf8.encodeChar, if_neg (by omega), if_neg (by omega),
              if_neg (by omega)]] at hlen ⊢
          cases n with
          | zero => simp at hlen
          | succ m =>
            rw [List.cons_append, List.cons_append, List.cons_append,
              List.cons_append, List.nil_append, Utf8.decodeAux]
            have hone : Utf8.decodeOne (0xF0 + c / 262144)
                ((0x80 + c / 4096 % 64) :: (0x80 + c / 64 % 64) ::
                  (0x80 + c % 64) :: Utf8.encode cs') = some (c, 3) := by
              rw [Utf8.decodeOne.eq_def, if_neg (by omega),
                if_neg (by omega), if_neg (by omega), if_neg (by omega),
                if_pos (by omega)]
              dsimp only
              split_ifs with hcond
              · simp only [Option.some.injEq, Prod.mk.injEq]
                exact ⟨by omega, trivial⟩
              · exact absurd (by omega) hcond
            rw [hone]
            show (Utf8.decodeAux m (((0x80 + c / 4096 % 64) ::
              (0x80 + c / 64 % 64) :: (0x80 + c % 64) ::
              Utf8.encode cs').drop 3)).map (fun x => c :: x) =
              some (c :: cs')
            rw [show ((0x80 + c / 4096 % 64) :: (0x80 + c / 64 % 64) ::
              (0x80 + c % 64) :: Utf8.encode cs').drop 3 =
              Utf8.encode cs' from rfl]
            rw [ih m (by simp at hlen; omega) hsc']
            rfl

theorem Utf8.encode_complete (cs : List Nat)
    (hsc : ∀ c ∈ cs, Utf8Scalar c) :
    Utf8.decode (Utf8.encode cs) = some cs :=
  Utf8.encode_complete_aux cs (Utf8.encode cs).length (Nat.le_refl _) hsc

/-- C10: `StringLoader::load` returns `Ok(s)` with the bytes of `s` exactly
the input if and only if the input is valid UTF-8, and returns an error
(carrying the input bytes) exactly when it is not. -/
theorem stringLoader_utf8 (bs : List Nat) :
    ((∃ s, StringLoader.load bs = .ok s ∧ Utf8.encode s = bs) ↔
      ValidUtf8 bs) ∧
    (StringLoader.load bs = .error bs ↔ ¬ ValidUtf8 bs) := by
  cases hdec : Utf8.decode bs with
  | some cs =>
    obtain ⟨henc, hsc⟩ :=
      Utf8.decode_sound bs.length bs cs (Nat.le_refl _) hdec
    have hload : StringLoader.load bs = .ok cs := by
      rw [StringLoader.load, RustString.from_utf8, hdec]
    have hvalid : ValidUtf8 bs := ⟨cs, hsc, henc⟩
    refine ⟨⟨fun _ => hvalid, fun _ => ⟨cs, hload, henc⟩⟩, ?_⟩
    constructor
    · intro habs
      rw [hload] at habs
      cases habs
    · intro habs
      exact absurd hvalid habs
  | none =>
    have hload : StringLoader.load bs = .error bs := by
      rw [StringLoader.load, RustString.from_utf8, hdec]
    have hnv : ¬ ValidUtf8 bs := by
      rintro ⟨cs, hsc, henc⟩
      rw [← henc, Utf8.encode_complete cs hsc] at hdec
      cases hdec
    constructor
    · constructor
      · rintro ⟨s, hs, _⟩
        rw [hload] at hs
        cases hs
      · intro hv
        exact absurd hv hnv
    · exact ⟨fun _ => hnv, fun _ => hload⟩

end AssetsManager
